import Mathlib

/-!
The language-model scorer of the beam-search decoder.

A shallow embedding of `models/swig_decoders/scorer.cpp`: the scorer state, the
context extractor `make_ngram`, the n-gram scoring functions, the vocabulary
classifier of `load_LM`, the symbol table of `set_char_map` and the dictionary of
`fill_dictionary`, followed by the properties proved about them.

Conventions of the embedding.

* The language model (KenLM) is an external library.  It is a record of the four
  operations the scorer calls; nothing is assumed about them.
* The finite-state library (OpenFst) is an external library.  It is a record of the
  three operations `fill_dictionary` calls; what a property needs of them is a
  hypothesis of that property.
* Scores are C++ `double`s.  The scorer only copies them and adds them up, so the
  score type is an arbitrary type `α` with a zero and an addition, and no law of
  arithmetic is used anywhere.
* A C++ run that aborts or reads an indeterminate value is a `Failure`.
-/

namespace SwigDecoders

/-! ## Reserved tokens -/

/-- Modelled from the spec: the constant `START_TOKEN` of `decoder_utils.h` (not
part of the sources at hand); §3 and §8 of the spec give the sentence-start token
as `<s>`. -/
def START_TOKEN : String := "<s>"

/-- Modelled from the spec: the constant `END_TOKEN` of `decoder_utils.h` (not part
of the sources at hand); §3 and §8 of the spec give the sentence-end token as
`</s>`. -/
def END_TOKEN : String := "</s>"

/-- Modelled from the spec: the constant `UNK_TOKEN` of `decoder_utils.h` (not part
of the sources at hand); §3 and §8 of the spec give the unknown token as `<unk>`. -/
def UNK_TOKEN : String := "<unk>"

/-- Modelled from the spec: the function `get_utf8_str_len` of `decoder_utils`
(not part of the sources at hand).  §4.1: the entry is decoded as UTF-8 and its
codepoints are counted.  A Lean `String` is a sequence of codepoints, so the count
is its length. -/
def get_utf8_str_len (str : String) : Nat := str.length

/-! ## The prefix tree -/

/-- A node of the beam search's shared prefix tree, seen from the scorer: the tree
root, or a node that carries a symbol id and hangs below its parent.  A symbol id
is an index into the symbol table, hence a natural number. -/
inductive PathTrie where
  | root : PathTrie
  | child (character : Nat) (parent : PathTrie) : PathTrie
  deriving DecidableEq

/-- The field `character` of a node.  The root carries the sentinel `-1`, the value
`make_ngram` tests for. -/
def PathTrie.character : PathTrie → Int
  | PathTrie.root => -1
  | PathTrie.child c _ => (c : Int)

/-- The field `parent` of a node.  In the source the root has a null parent;
`make_ngram` reads the parent of the root only in the iteration in which it leaves
its loop, and never uses the value, so the root stands in for it here. -/
def PathTrie.parent : PathTrie → PathTrie
  | PathTrie.root => PathTrie.root
  | PathTrie.child _ p => p

/-- The node reached from `t` by appending the symbols `syms`, oldest first. -/
def PathTrie.extend (t : PathTrie) (syms : List Nat) : PathTrie :=
  syms.foldl (fun n c => PathTrie.child c n) t

/-- The symbols on the path from the root to the node, oldest first. -/
def PathTrie.path : PathTrie → List Nat
  | PathTrie.root => []
  | PathTrie.child c p => p.path ++ [c]

/-- Modelled from the spec: the method `PathTrie::get_path_vec` of `path_trie.cpp`
(not part of the sources at hand; `make_ngram` calls it as
`get_path_vec(prefix_vec, _SPACE_ID)` and `get_path_vec(prefix_vec, _SPACE_ID, 1)`).

§3 and §6 of the spec: starting at the node itself, it collects the chain of
ancestor symbol ids up to a stop condition, which is a boundary symbol for
word-level mode and a number of visited nodes for character-level mode, and it
returns the collected ids and the node at which collection stopped.

* Without `max_steps` (§4.2, word-based mode) it collects until it meets a node
  that carries the boundary symbol `stop`, or the root.  That node is returned and
  its symbol is not collected: `make_ngram` skips the boundary symbol by moving on
  to the parent of the returned node.
* With `max_steps` (§4.2, character-based mode, where it is `1`) the stop condition
  is the number of visited nodes and the boundary symbol plays no part: it collects
  exactly `max_steps` ids, fewer only when the root comes first, and returns the
  first node it did not collect.

The collected ids are returned nearest-first (§3): the symbol of the node the walk
starts at comes first, the symbol collected last comes last. -/
def PathTrie.get_path_vec : PathTrie → Int → Option Nat → List Nat × PathTrie
  | PathTrie.root, _, _ => ([], PathTrie.root)
  | PathTrie.child c p, stop, none =>
      if (c : Int) = stop then ([], PathTrie.child c p)
      else (c :: (p.get_path_vec stop none).1, (p.get_path_vec stop none).2)
  | PathTrie.child c p, stop, some max_steps =>
      if max_steps = 0 then ([], PathTrie.child c p)
      else (c :: (p.get_path_vec stop (some (max_steps - 1))).1,
            (p.get_path_vec stop (some (max_steps - 1))).2)

/-! ## The external language model and the scorer state -/

/-- The language-model library, as far as the scorer calls it (`lm::base::Model`).
`σ` is the library's state type and `α` the type of scores. -/
structure Model (σ α : Type) where
  /-- The function `Order()`. -/
  Order : Nat
  /-- The state written by `NullContextWrite`. -/
  NullContext : σ
  /-- The function `BaseVocabulary().Index(word)`; index `0` is out of vocabulary. -/
  Index : String → Nat
  /-- The function `BaseScore(&state, word_index, &out_state)`: the score it returns
  and the state it writes to `out_state`. -/
  BaseScore : σ → Nat → α × σ

/-- What `lm::ngram::LoadVirtual` hands back for an existing model file: the model
and the vocabulary it enumerated. -/
structure LoadedModel (σ α : Type) where
  model : Model σ α
  vocabulary : List String

/-- The automaton type of the external finite-state library
(`fst::StdVectorFst`), as a start state (`none` as long as none is set), final
states and arcs (source state, input label, output label, target state).  Label
`0` is the library's epsilon. -/
structure StdVectorFst where
  start : Option Nat
  finals : List Nat
  arcs : List (Nat × Nat × Nat × Nat)

/-- The three operations of the finite-state library that `fill_dictionary` calls.
They are the library's, not the scorer's, and are arguments of the embedding. -/
structure FstLibrary where
  /-- The function `fst::RmEpsilon`, as the automaton it leaves in place. -/
  RmEpsilon : StdVectorFst → StdVectorFst
  /-- The function `fst::Determinize`, as the automaton it writes to its output. -/
  Determinize : StdVectorFst → StdVectorFst
  /-- The function `fst::Minimize`, as the automaton it leaves in place. -/
  Minimize : StdVectorFst → StdVectorFst

/-- The data members of `Scorer`.  Null pointers are `none`. -/
structure Scorer (σ α : Type) where
  alpha : α
  beta : α
  is_character_based : Bool
  language_model : Option (Model σ α)
  dictionary : Option StdVectorFst
  max_order : Nat
  SPACE_ID : Int
  vocabulary : List String
  char_list : List String
  char_map : Char → Option Nat

/-- The ways a call into the scorer can go wrong in the source. -/
inductive Failure where
  /-- The check `assert(words.size() > _max_order)` fails. -/
  | assertion : Failure
  /-- The null `_language_model` pointer is dereferenced. -/
  | null_model : Failure
  /-- The local `cond_prob` is returned without ever having been assigned. -/
  | uninitialized : Failure
  deriving DecidableEq

/-- Subtraction of two `size_t` values, which wraps around below zero. -/
def size_sub (a b : Nat) : Nat :=
  if b ≤ a then a - b else a + 2 ^ 64 - b

variable {σ α : Type}

/-! ## Symbol table and context extractor -/

/-- The method `Scorer::vec2str`: the concatenation of the symbol-table strings of
the ids.  An id outside the table, which the source must not be given, reads as
the empty string. -/
def Scorer.vec2str (S : Scorer σ α) (input : List Nat) : String :=
  input.foldl (fun word ind => word ++ S.char_list.getD ind "") ""

/-- The loop of `Scorer::make_ngram`, from iteration `order` on, with `fuel`
iterations left (`fuel = _max_order - order`), the walk cursor `current_node` and
the tokens pushed so far. -/
def Scorer.make_ngram_loop (get_path_vec : PathTrie → Int → Option Nat → List Nat × PathTrie)
    (S : Scorer σ α) : Nat → Nat → PathTrie → List String → List String
  | 0, _, _, ngram => ngram
  | fuel + 1, order, current_node, ngram =>
      let r := if S.is_character_based then get_path_vec current_node S.SPACE_ID (some 1)
               else get_path_vec current_node S.SPACE_ID none
      let prefix_vec := r.1
      let new_node := r.2
      let current_node := if S.is_character_based then new_node else new_node.parent
      let word := S.vec2str prefix_vec
      let ngram := ngram ++ [word]
      if new_node.character = -1 then
        ngram ++ List.replicate (S.max_order - order - 1) START_TOKEN
      else
        Scorer.make_ngram_loop get_path_vec S fuel (order + 1) current_node ngram

/-- The method `Scorer::make_ngram`.  The collection operation of the prefix tree
belongs to the tree (§6: prefix-tree collaborator) and is an argument. -/
def Scorer.make_ngram (get_path_vec : PathTrie → Int → Option Nat → List Nat × PathTrie)
    (S : Scorer σ α) (node : PathTrie) : List String :=
  (Scorer.make_ngram_loop get_path_vec S S.max_order 0 node []).reverse

/-! ## N-gram scoring

The constant `OOV_SCORE` of `decoder_utils.h` is not part of the sources at hand and
the spec gives it no value; it is an argument of the functions that use it. -/

/-- The loop of `Scorer::get_log_cond_prob` over the words still to be looked at,
with the current model state and the local `cond_prob`, which is `none` as long as
nothing has been assigned to it.  The three assignments after `BaseScore` make the
state it wrote the current state. -/
def Scorer.get_log_cond_prob_loop (model : Model σ α) (OOV_SCORE : α) :
    List String → σ → Option α → Except Failure α
  | [], _, cond_prob =>
      match cond_prob with
      | some p => Except.ok p
      | none => Except.error Failure.uninitialized
  | word :: rest, state, _ =>
      let word_index := model.Index word
      if word_index = 0 then Except.ok OOV_SCORE
      else
        let r := model.BaseScore state word_index
        Scorer.get_log_cond_prob_loop model OOV_SCORE rest r.2 (some r.1)

/-- The method `Scorer::get_log_cond_prob`. -/
def Scorer.get_log_cond_prob (S : Scorer σ α) (OOV_SCORE : α) (words : List String) :
    Except Failure α :=
  match S.language_model with
  | none => Except.error Failure.null_model
  | some model =>
      Scorer.get_log_cond_prob_loop model OOV_SCORE words model.NullContext none

/-- The window `ngram(words.begin() + i, words.begin() + i + _max_order)` of
`Scorer::get_log_prob`. -/
def Scorer.window (S : Scorer σ α) (words : List String) (i : Nat) : List String :=
  (words.drop i).take S.max_order

/-- The loop of `Scorer::get_log_prob`, with `n` iterations left, from index `i`,
with the running `score`. -/
def Scorer.get_log_prob_loop [Add α] (S : Scorer σ α) (OOV_SCORE : α) (words : List String) :
    Nat → Nat → α → Except Failure α
  | 0, _, score => Except.ok score
  | n + 1, i, score =>
      match S.get_log_cond_prob OOV_SCORE (S.window words i) with
      | Except.error e => Except.error e
      | Except.ok p => Scorer.get_log_prob_loop S OOV_SCORE words n (i + 1) (score + p)

/-- The method `Scorer::get_log_prob`, with its assertion compiled in.  Past the
assertion `words.size() - _max_order + 1` does not wrap around. -/
def Scorer.get_log_prob [Zero α] [Add α] (S : Scorer σ α) (OOV_SCORE : α)
    (words : List String) : Except Failure α :=
  if words.length > S.max_order then
    Scorer.get_log_prob_loop S OOV_SCORE words (words.length - S.max_order + 1) 0 0
  else
    Except.error Failure.assertion

/-- The sequence `sentence` that `Scorer::get_sent_log_prob` builds. -/
def Scorer.sentence (S : Scorer σ α) (words : List String) : List String :=
  (if words.length = 0 then List.replicate S.max_order START_TOKEN
   else List.replicate (size_sub S.max_order 1) START_TOKEN ++ words) ++ [END_TOKEN]

/-- The method `Scorer::get_sent_log_prob`. -/
def Scorer.get_sent_log_prob [Zero α] [Add α] (S : Scorer σ α) (OOV_SCORE : α)
    (words : List String) : Except Failure α :=
  S.get_log_prob OOV_SCORE (S.sentence words)

/-! ## Construction and the vocabulary classifier -/

/-- One iteration of the loop of `Scorer::load_LM` over the vocabulary: the new value
of `_is_character_based` after the entry `entry`. -/
def Scorer.classify_step (is_character_based : Bool) (entry : String) : Bool :=
  if is_character_based && entry != UNK_TOKEN && entry != START_TOKEN && entry != END_TOKEN &&
      decide (get_utf8_str_len entry > 1) then false
  else is_character_based

/-- The method `Scorer::load_LM`.  The argument is what the file system and the
language-model library answer for the file name: `none` when the file does not
exist, in which case the process exits and there is no scorer. -/
def Scorer.load_LM (S : Scorer σ α) (file : Option (LoadedModel σ α)) : Option (Scorer σ α) :=
  match file with
  | none => none
  | some enumerate =>
      some { S with
        language_model := some enumerate.model
        max_order := enumerate.model.Order
        vocabulary := enumerate.vocabulary
        is_character_based :=
          enumerate.vocabulary.foldl Scorer.classify_step S.is_character_based }

/-- The constructor `Scorer::Scorer`.  The containers start empty. -/
def Scorer.new (alpha beta : α) (file : Option (LoadedModel σ α)) : Option (Scorer σ α) :=
  Scorer.load_LM
    { alpha := alpha, beta := beta, is_character_based := true, language_model := none,
      dictionary := none, max_order := 0, SPACE_ID := -1, vocabulary := [], char_list := [],
      char_map := fun _ => none }
    file

/-! ## Weights, symbol table and dictionary -/

/-- The method `Scorer::reset_params`.  Its arguments are `float`s and the members
`double`s; the conversion keeps the value, so the arguments are taken as scores. -/
def Scorer.reset_params (S : Scorer σ α) (alpha beta : α) : Scorer σ α :=
  { S with alpha := alpha, beta := beta }

/-- The loop of `Scorer::set_char_map` over the entries from index `i` on.  The
index is taken as it is when it is stored in `_SPACE_ID`, which holds for the tables
of fewer than `2 ^ 31` entries that an `unsigned int` counter and an `int` member can
handle.  An entry of `size() == 1` is one byte long, and its byte `[0]` is its
character. -/
def Scorer.set_char_map_loop : List String → Nat → Scorer σ α → Scorer σ α
  | [], _, S => S
  | entry :: rest, i, S =>
      if entry = " " then
        Scorer.set_char_map_loop rest (i + 1)
          { S with SPACE_ID := (i : Int), char_map := Function.update S.char_map ' ' (some i) }
      else if entry.utf8ByteSize = 1 then
        Scorer.set_char_map_loop rest (i + 1)
          { S with char_map := Function.update S.char_map (entry.get 0) (some i) }
      else
        Scorer.set_char_map_loop rest (i + 1) S

/-- The method `Scorer::set_char_map`. -/
def Scorer.set_char_map (S : Scorer σ α) (char_list : List String) : Scorer σ α :=
  Scorer.set_char_map_loop char_list 0
    { S with char_list := char_list, char_map := fun _ => none }

/-- The first loop of `Scorer::fill_dictionary`, over the entries from index `i` on:
`char_map[_char_list[i]] = i` on a map from strings to ids. -/
def Scorer.reverse_map_loop : List String → Nat → (String → Option Nat) → String → Option Nat
  | [], _, char_map => char_map
  | entry :: rest, i, char_map =>
      Scorer.reverse_map_loop rest (i + 1) (Function.update char_map entry (some i))

/-- The local `char_map` of `Scorer::fill_dictionary`: the symbol table reversed, "so
ints can be accessed by chars". -/
def Scorer.reverse_map (S : Scorer σ α) : String → Option Nat :=
  Scorer.reverse_map_loop S.char_list 0 (fun _ => none)

/-- The method `Scorer::fill_dictionary`.  The function `add_word_to_dictionary` of
`decoder_utils` is not part of the sources at hand and is an argument: it is given
the word, the reversed symbol table, `add_space`, `_SPACE_ID` and the automaton, and
answers whether it added the word, together with the automaton it leaves.  The count
of added words is only printed. -/
def Scorer.fill_dictionary (lib : FstLibrary)
    (add_word_to_dictionary :
      String → (String → Option Nat) → Bool → Int → StdVectorFst → Bool × StdVectorFst)
    (S : Scorer σ α) (add_space : Bool) : Scorer σ α :=
  let char_map := S.reverse_map
  let filled := S.vocabulary.foldl
    (fun (state : StdVectorFst × Nat) word =>
      let r := add_word_to_dictionary word char_map add_space S.SPACE_ID state.1
      (r.2, state.2 + (if r.1 then 1 else 0)))
    ({ start := none, finals := [], arcs := [] }, 0)
  let dictionary := lib.RmEpsilon filled.1
  let new_dict := lib.Determinize dictionary
  { S with dictionary := some (lib.Minimize new_dict) }

/-! ## Definitions used to state the properties -/

/-- Modelled from the spec: the conversion of a word to symbol ids inside
`add_word_to_dictionary` of `decoder_utils` (not part of the sources at hand), here
on the characters of the word.  §4.4: the entry is converted to a path of symbol ids
using the symbol table's reverse mapping, one id per symbol, and an entry that
contains a symbol absent from the symbol table is rejected. -/
def chars_to_ids (char_map : String → Option Nat) : List Char → Option (List Nat)
  | [] => some []
  | c :: rest =>
      match char_map (String.singleton c) with
      | none => none
      | some id =>
          match chars_to_ids char_map rest with
          | none => none
          | some ids => some (id :: ids)

/-- Modelled from the spec: the conversion of a word to symbol ids inside
`add_word_to_dictionary` (see `chars_to_ids`). -/
def word_to_ids (char_map : String → Option Nat) (word : String) : Option (List Nat) :=
  chars_to_ids char_map word.data

/-- The automaton has no epsilon transition: no arc has input label `0`. -/
def StdVectorFst.epsilon_free (f : StdVectorFst) : Prop :=
  ∀ arc ∈ f.arcs, arc.2.1 ≠ 0

/-- The automaton is deterministic: for every state and every input symbol at most
one arc leaves the state on the symbol, that is, no pair of a source state and an
input label occurs on two arcs. -/
def StdVectorFst.deterministic (f : StdVectorFst) : Prop :=
  (f.arcs.map (fun arc => (arc.1, arc.2.1))).Nodup

instance (f : StdVectorFst) : Decidable f.epsilon_free := by
  unfold StdVectorFst.epsilon_free
  infer_instance

instance (f : StdVectorFst) : Decidable f.deterministic := by
  unfold StdVectorFst.deterministic
  infer_instance

/-- The node at the end of a path that spells the words `rs`, given newest word
first, with one boundary symbol `sp` between neighbouring words. -/
def PathTrie.of_words_rev (sp : Nat) : List (List Nat) → PathTrie
  | [] => PathTrie.root
  | [w] => PathTrie.root.extend w
  | w :: w2 :: rs => (PathTrie.child sp (PathTrie.of_words_rev sp (w2 :: rs))).extend w

/-- The scorer state used to run `make_ngram` on concrete trees: symbol table
`a`, `b`, space, `c`, with the space at index 2. -/
def example_scorer (is_character_based : Bool) (max_order : Nat) : Scorer Unit Nat :=
  { alpha := 0, beta := 0, is_character_based := is_character_based, language_model := none,
    dictionary := none, max_order := max_order, SPACE_ID := 2, vocabulary := [],
    char_list := ["a", "b", " ", "c"], char_map := fun _ => none }

/-- The score a window gets, read off `get_log_cond_prob`. -/
def Scorer.window_score (S : Scorer σ α) (OOV_SCORE : α) (words : List String) (i : Nat) : α :=
  match S.get_log_cond_prob OOV_SCORE (S.window words i) with
  | Except.ok p => p
  | Except.error _ => OOV_SCORE

/-- The state in which the last token of a sequence is queried, in the spec's words
(§4.3): start from the model's null state and, for each earlier token in order,
take the next state the model produces for it. -/
def Model.state_after (model : Model σ α) (tokens : List String) : σ :=
  tokens.foldl (fun state token => (model.BaseScore state (model.Index token)).2)
    model.NullContext

/-- A small language model for running the scoring functions: vocabulary
`<unk>`, `<s>`, `</s>`, `a`, `b` (index 0 to 4, every other word out of vocabulary),
the state is the index of the previous word (0 in the null context), and the score
of word `w` after word `v` is `-(10 * v + w)`. -/
def example_model (order : Nat) : Model Nat Int :=
  { Order := order
    NullContext := 0
    Index := fun word =>
      if word = "<s>" then 1 else if word = "</s>" then 2
      else if word = "a" then 3 else if word = "b" then 4 else 0
    BaseScore := fun state word_index => (-(10 * (state : Int) + word_index), word_index) }

/-- The vocabulary file of `example_model`. -/
def example_file (order : Nat) : LoadedModel Nat Int :=
  { model := example_model order, vocabulary := ["<unk>", "<s>", "</s>", "a", "b"] }

/-- The scorer constructed on `example_model`, as `Scorer::Scorer` leaves it. -/
def example_lm_scorer (order : Nat) : Scorer Nat Int :=
  { alpha := 1, beta := 1, is_character_based := true,
    language_model := some (example_model order), dictionary := none, max_order := order,
    SPACE_ID := -1, vocabulary := ["<unk>", "<s>", "</s>", "a", "b"], char_list := [],
    char_map := fun _ => none }

/-- A stand-in for the finite-state library, for running `fill_dictionary`: epsilon
removal drops the arcs labelled `0`, determinization keeps the first arc for every
pair of a source state and an input label, minimization changes nothing.  It is
not the library's algorithms; it meets the contracts that the property of
`fill_dictionary` asks of them. -/
def example_library : FstLibrary :=
  { RmEpsilon := fun f => { f with arcs := f.arcs.filter (fun arc => arc.2.1 ≠ 0) }
    Determinize := fun f =>
      { f with arcs := f.arcs.pwFilter (fun a b => (a.1, a.2.1) ≠ (b.1, b.2.1)) }
    Minimize := fun f => f }

/-- A stand-in for `add_word_to_dictionary`, for running `fill_dictionary`: a word
that `word_to_ids` converts is added as a chain of arcs from state `0` through fresh
states, labelled with its ids (followed by `_SPACE_ID` when `add_space` is set and
there is a boundary symbol); any other word is rejected. -/
def example_add_word (word : String) (char_map : String → Option Nat) (add_space : Bool)
    (SPACE_ID : Int) (f : StdVectorFst) : Bool × StdVectorFst :=
  match word_to_ids char_map word with
  | none => (false, f)
  | some ids =>
      let labels := if add_space && decide (0 ≤ SPACE_ID) then ids ++ [SPACE_ID.toNat] else ids
      let base := f.arcs.length
      (true,
        { start := some 0
          finals := f.finals ++ [base + labels.length]
          arcs := f.arcs ++ labels.enum.map (fun (entry : Nat × Nat) =>
            ((if entry.1 = 0 then 0 else base + entry.1), entry.2, entry.2,
              base + entry.1 + 1)) })

/-- The scorer on `example_model` after `set_char_map` with the symbol table `e`,
`a`, `b`, space. -/
def example_table_scorer : Scorer Nat Int :=
  (example_lm_scorer 2).set_char_map ["e", "a", "b", " "]

/-! ## Properties of the context extractor -/

theorem Scorer.make_ngram_loop_length
    (get_path_vec : PathTrie → Int → Option Nat → List Nat × PathTrie) (S : Scorer σ α) :
    ∀ (fuel order : Nat) (node : PathTrie) (ngram : List String),
      order + fuel = S.max_order → ngram.length = order →
      (Scorer.make_ngram_loop get_path_vec S fuel order node ngram).length = S.max_order := by
  intro fuel
  induction fuel with
  | zero =>
    intro order node ngram h1 h2
    simp only [Scorer.make_ngram_loop]
    omega
  | succ k ih =>
    intro order node ngram h1 h2
    simp only [Scorer.make_ngram_loop]
    split_ifs
    all_goals first
      | (simp only [List.length_append, List.length_replicate, List.length_singleton]
         omega)
      | (apply ih
         · omega
         · simp only [List.length_append, List.length_singleton]
           omega)

/-- C1: whatever node the walk starts at (the root, a short path, a long path),
whatever the order, in character-based and in word-based mode, and whatever the
tree's collection operation hands back, `make_ngram` returns exactly `max_order`
tokens. -/
theorem Scorer.make_ngram_length
    (get_path_vec : PathTrie → Int → Option Nat → List Nat × PathTrie)
    (S : Scorer σ α) (node : PathTrie) :
    (Scorer.make_ngram get_path_vec S node).length = S.max_order := by
  unfold Scorer.make_ngram
  rw [List.length_reverse]
  exact Scorer.make_ngram_loop_length get_path_vec S S.max_order 0 node [] (by omega) rfl

/-! ### The tree's collection operation -/

theorem PathTrie.path_extend (t : PathTrie) (syms : List Nat) :
    (t.extend syms).path = t.path ++ syms := by
  induction syms generalizing t with
  | nil => simp [PathTrie.extend]
  | cons c cs ih =>
    have h := ih (PathTrie.child c t)
    simp only [PathTrie.extend, List.foldl_cons] at h ⊢
    rw [h]
    simp [PathTrie.path]

theorem PathTrie.extend_append (t : PathTrie) (a b : List Nat) :
    t.extend (a ++ b) = (t.extend a).extend b := by
  simp [PathTrie.extend, List.foldl_append]

theorem PathTrie.get_path_vec_one (c : Nat) (p : PathTrie) (stop : Int) :
    (PathTrie.child c p).get_path_vec stop (some 1) = ([c], p) := by
  cases p <;> simp [PathTrie.get_path_vec]

theorem PathTrie.get_path_vec_extend (t : PathTrie) (stop : Int) (w : List Nat)
    (hw : ∀ c ∈ w, (c : Int) ≠ stop) :
    (t.extend w).get_path_vec stop none =
      (w.reverse ++ (t.get_path_vec stop none).1, (t.get_path_vec stop none).2) := by
  induction w generalizing t with
  | nil => simp [PathTrie.extend]
  | cons c cs ih =>
    have hc : (c : Int) ≠ stop := hw c (List.mem_cons_self c cs)
    have h := ih (PathTrie.child c t) (fun d hd => hw d (List.mem_cons_of_mem c hd))
    simp only [PathTrie.extend, List.foldl_cons] at h ⊢
    rw [h]
    simp [PathTrie.get_path_vec, hc]

theorem Scorer.vec2str_singleton (S : Scorer σ α) (ind : Nat) :
    S.vec2str [ind] = S.char_list.getD ind "" := by
  simp [Scorer.vec2str]

/-! ### Character-based mode -/

theorem Scorer.make_ngram_loop_character_based (S : Scorer σ α)
    (hc : S.is_character_based = true) :
    ∀ (c : Nat) (p : PathTrie) (fuel order : Nat) (ngram : List String),
      order + fuel = S.max_order →
      Scorer.make_ngram_loop PathTrie.get_path_vec S fuel order (PathTrie.child c p) ngram =
        ngram ++ (((PathTrie.child c p).path.reverse.map
            (fun ind => S.char_list.getD ind "")).take fuel ++
          List.replicate (fuel - (PathTrie.child c p).path.length) START_TOKEN) := by
  intro c p
  induction p generalizing c with
  | root =>
    intro fuel order ngram h
    cases fuel with
    | zero => simp [Scorer.make_ngram_loop]
    | succ k =>
      have hk : S.max_order - order - 1 = k := by omega
      simp [Scorer.make_ngram_loop, hc, PathTrie.get_path_vec, PathTrie.character,
        PathTrie.path, Scorer.vec2str, hk]
  | child d q ih =>
    intro fuel order ngram h
    cases fuel with
    | zero => simp [Scorer.make_ngram_loop]
    | succ k =>
      have hstep := ih d k (order + 1) (ngram ++ [S.char_list.getD c ""]) (by omega)
      have hne : ¬ ((d : Int) = -1) := by omega
      simp only [Scorer.make_ngram_loop, hc, if_true, PathTrie.get_path_vec_one,
        Scorer.vec2str_singleton, PathTrie.character, hne, if_false, hstep]
      simp [PathTrie.path]

/-- C2: in character-based mode, on the node at the end of a path of `k ≥ 1`
symbols of the symbol table, `make_ngram` returns `max_order - min k max_order`
sentence-start tokens followed by the symbol-table strings of the last
`min k max_order` symbols, oldest first, one token per symbol. -/
theorem Scorer.make_ngram_character_based (S : Scorer σ α) (syms : List Nat)
    (hc : S.is_character_based = true) (hk : 1 ≤ syms.length)
    (_hv : ∀ c ∈ syms, c < S.char_list.length) :
    Scorer.make_ngram PathTrie.get_path_vec S (PathTrie.root.extend syms) =
      List.replicate (S.max_order - min syms.length S.max_order) START_TOKEN ++
        (syms.drop (syms.length - min syms.length S.max_order)).map
          (fun ind => S.char_list.getD ind "") := by
  have hp : (PathTrie.root.extend syms).path = syms := by
    simp [PathTrie.path_extend, PathTrie.path]
  obtain ⟨c, p, hcp⟩ : ∃ c p, PathTrie.root.extend syms = PathTrie.child c p := by
    cases hnode : PathTrie.root.extend syms with
    | root =>
      rw [hnode] at hp
      simp only [PathTrie.path] at hp
      rw [← hp] at hk
      simp at hk
    | child c p => exact ⟨c, p, rfl⟩
  have hloop := Scorer.make_ngram_loop_character_based S hc c p S.max_order 0 [] (by omega)
  rw [← hcp, hp] at hloop
  have h1 : S.max_order - min syms.length S.max_order = S.max_order - syms.length := by omega
  have h2 : syms.length - min syms.length S.max_order = syms.length - S.max_order := by omega
  unfold Scorer.make_ngram
  rw [hloop, h1, h2]
  simp only [List.nil_append, List.reverse_append, List.reverse_replicate, ← List.map_reverse,
    ← List.map_take, ← List.map_drop, List.take_reverse, List.reverse_reverse]

/-- C2 at a path of length 1 with order 5: four sentence-start tokens, then the one
real token. -/
theorem Scorer.make_ngram_character_based_witness :
    Scorer.make_ngram PathTrie.get_path_vec (example_scorer true 5) (PathTrie.root.extend [1]) =
      ["<s>", "<s>", "<s>", "<s>", "b"] :=
  Scorer.make_ngram_character_based (example_scorer true 5) [1] rfl (by decide) (by decide)

/-! ### Word-based mode -/

theorem List.intercalate_append_singleton (sep : List Nat) (w : List Nat) :
    ∀ (ws : List (List Nat)), ws ≠ [] →
      List.intercalate sep (ws ++ [w]) = List.intercalate sep ws ++ sep ++ w := by
  intro ws
  induction ws with
  | nil => intro h; exact absurd rfl h
  | cons a t ih =>
    intro _
    cases t with
    | nil => simp [List.intercalate, List.intersperse]
    | cons b t2 =>
      have h := ih (by simp)
      simp only [List.intercalate, List.cons_append, List.intersperse, List.flatten_cons,
        List.append_assoc, List.append_eq] at h ⊢
      rw [h]

theorem PathTrie.of_words_rev_eq (sp : Nat) :
    ∀ (rs : List (List Nat)),
      PathTrie.of_words_rev sp rs = PathTrie.root.extend (List.intercalate [sp] rs.reverse) := by
  intro rs
  induction rs with
  | nil => rfl
  | cons w t ih =>
    cases t with
    | nil => simp [PathTrie.of_words_rev, List.intercalate, List.intersperse]
    | cons w2 t2 =>
      have hne : (w2 :: t2).reverse ≠ [] := by simp
      have hr : (w :: w2 :: t2).reverse = (w2 :: t2).reverse ++ [w] := by simp
      rw [PathTrie.of_words_rev, ih, hr,
        List.intercalate_append_singleton [sp] w _ hne, PathTrie.extend_append,
        PathTrie.extend_append]
      rfl

theorem Scorer.make_ngram_loop_word_based (S : Scorer σ α) (sp : Nat)
    (hc : S.is_character_based = false) :
    ∀ (rs : List (List Nat)), rs ≠ [] → (2 ≤ rs.length → S.SPACE_ID = (sp : Int)) →
      (∀ w ∈ rs, ∀ c ∈ w, (c : Int) ≠ S.SPACE_ID) →
      ∀ (fuel order : Nat) (ngram : List String), order + fuel = S.max_order →
        Scorer.make_ngram_loop PathTrie.get_path_vec S fuel order
            (PathTrie.of_words_rev sp rs) ngram =
          ngram ++ ((rs.map (fun w => S.vec2str w.reverse)).take fuel ++
            List.replicate (fuel - rs.length) START_TOKEN) := by
  intro rs
  induction rs with
  | nil => intro h; exact absurd rfl h
  | cons w t ih =>
    intro _ hsp hfree fuel order ngram h
    have hw : ∀ c ∈ w, (c : Int) ≠ S.SPACE_ID := hfree w (List.mem_cons_self w t)
    cases fuel with
    | zero => simp [Scorer.make_ngram_loop]
    | succ k =>
      cases t with
      | nil =>
        have hk : S.max_order - order - 1 = k := by omega
        simp [Scorer.make_ngram_loop, hc, PathTrie.of_words_rev,
          PathTrie.get_path_vec_extend PathTrie.root S.SPACE_ID w hw, PathTrie.get_path_vec,
          PathTrie.character, hk]
      | cons w2 t2 =>
        have hsp2 : S.SPACE_ID = (sp : Int) := hsp (by simp)
        have hstep := ih (by simp) (fun _ => hsp2)
          (fun v hv => hfree v (List.mem_cons_of_mem w hv))
          k (order + 1) (ngram ++ [S.vec2str w.reverse]) (by omega)
        have hne : ¬ ((sp : Int) = -1) := by omega
        have hg : (PathTrie.child sp (PathTrie.of_words_rev sp (w2 :: t2))).get_path_vec
            S.SPACE_ID none = ([], PathTrie.child sp (PathTrie.of_words_rev sp (w2 :: t2))) := by
          simp [PathTrie.get_path_vec, hsp2]
        rw [PathTrie.of_words_rev]
        simp only [Scorer.make_ngram_loop, hc, Bool.false_eq_true, if_false,
          PathTrie.get_path_vec_extend _ S.SPACE_ID w hw, hg, List.append_nil,
          PathTrie.character, hne, PathTrie.parent, hstep]
        simp

theorem Scorer.make_ngram_word_based_tokens (S : Scorer σ α) (sp : Nat)
    (words : List (List Nat)) (hc : S.is_character_based = false)
    (hsp : 2 ≤ words.length → S.SPACE_ID = (sp : Int)) (hm : words ≠ [])
    (hfree : ∀ w ∈ words, ∀ c ∈ w, (c : Int) ≠ S.SPACE_ID) :
    Scorer.make_ngram PathTrie.get_path_vec S
        (PathTrie.root.extend (List.intercalate [sp] words)) =
      List.replicate (S.max_order - words.length) START_TOKEN ++
        (words.drop (words.length - S.max_order)).map (fun w => S.vec2str w.reverse) := by
  have hrev : words.reverse ≠ [] := by
    intro h
    exact hm (List.reverse_eq_nil_iff.mp h)
  have hloop := Scorer.make_ngram_loop_word_based S sp hc words.reverse hrev
    (by simpa using hsp) (fun w hw => hfree w (List.mem_reverse.mp hw)) S.max_order 0 []
    (by omega)
  rw [PathTrie.of_words_rev_eq, List.reverse_reverse] at hloop
  unfold Scorer.make_ngram
  rw [hloop]
  simp only [List.nil_append, List.reverse_append, List.reverse_replicate, List.length_reverse,
    ← List.map_reverse, ← List.map_take, ← List.map_drop, List.take_reverse,
    List.reverse_reverse]

/-- The constructor run on the vocabulary file of `example_model` yields
`example_lm_scorer`: the order is the model's and the verdict is character-based. -/
theorem example_lm_scorer_eq (order : Nat) :
    Scorer.new 1 1 (some (example_file order)) = some (example_lm_scorer order) := by
  rfl


theorem Scorer.get_log_cond_prob_loop_oov (model : Model σ α) (OOV_SCORE : α) :
    ∀ (words : List String) (state : σ) (cond_prob : Option α),
      (∃ w ∈ words, model.Index w = 0) →
      Scorer.get_log_cond_prob_loop model OOV_SCORE words state cond_prob =
        Except.ok OOV_SCORE := by
  intro words
  induction words with
  | nil => intro _ _ h; simp at h
  | cons w rest ih =>
    intro state cond_prob h
    by_cases hw : model.Index w = 0
    · simp [Scorer.get_log_cond_prob_loop, hw]
    · have hrest : ∃ v ∈ rest, model.Index v = 0 := by
        obtain ⟨v, hv, hv0⟩ := h
        rcases List.mem_cons.mp hv with rfl | hmem
        · exact absurd hv0 hw
        · exact ⟨v, hmem, hv0⟩
      simp [Scorer.get_log_cond_prob_loop, hw, ih _ _ hrest]

/-- C4: when some token of the sequence has vocabulary index 0 (out of
vocabulary), `get_log_cond_prob` returns exactly `OOV_SCORE`, whatever the other
tokens are and whatever the model scores for them. -/
theorem Scorer.get_log_cond_prob_oov (S : Scorer σ α) (model : Model σ α) (OOV_SCORE : α)
    (words : List String) (hmodel : S.language_model = some model)
    (hoov : ∃ w ∈ words, model.Index w = 0) :
    S.get_log_cond_prob OOV_SCORE words = Except.ok OOV_SCORE := by
  simp only [Scorer.get_log_cond_prob, hmodel]
  exact Scorer.get_log_cond_prob_loop_oov model OOV_SCORE words _ _ hoov

/-- C4 on `example_model`: the sequence `a`, `zebra`, `b` has the unknown word
`zebra` in the middle and scores `OOV_SCORE`, here `-1000`. -/
theorem Scorer.get_log_cond_prob_oov_witness :
    (example_lm_scorer 3).get_log_cond_prob (-1000) ["a", "zebra", "b"] = Except.ok (-1000) :=
  Scorer.get_log_cond_prob_oov (example_lm_scorer 3) (example_model 3) (-1000)
    ["a", "zebra", "b"] rfl ⟨"zebra", by decide, by decide⟩

theorem Scorer.get_log_cond_prob_loop_last (model : Model σ α) (OOV_SCORE : α) (last : String) :
    ∀ (earlier : List String) (state : σ) (cond_prob : Option α),
      (∀ w ∈ earlier ++ [last], model.Index w ≠ 0) →
      Scorer.get_log_cond_prob_loop model OOV_SCORE (earlier ++ [last]) state cond_prob =
        Except.ok (model.BaseScore
          (earlier.foldl (fun st token => (model.BaseScore st (model.Index token)).2) state)
          (model.Index last)).1 := by
  intro earlier
  induction earlier with
  | nil =>
    intro state cond_prob h
    have hl : model.Index last ≠ 0 := h last (by simp)
    simp [Scorer.get_log_cond_prob_loop, hl]
  | cons w rest ih =>
    intro state cond_prob h
    have hw : model.Index w ≠ 0 := h w (by simp)
    have hrest : ∀ v ∈ rest ++ [last], model.Index v ≠ 0 := by
      intro v hv
      exact h v (by simp only [List.cons_append, List.mem_cons]; exact Or.inr hv)
    simp [Scorer.get_log_cond_prob_loop, hw, ih _ _ hrest]

/-- C5: on a non-empty sequence whose tokens are all in the vocabulary,
`get_log_cond_prob` returns the model's score of the last token, queried in the
state reached from the null context by threading the next state of the query of
every earlier token, in order.  It is that one score, not a sum. -/
theorem Scorer.get_log_cond_prob_last (S : Scorer σ α) (model : Model σ α) (OOV_SCORE : α)
    (earlier : List String) (last : String) (hmodel : S.language_model = some model)
    (hvocab : ∀ w ∈ earlier ++ [last], model.Index w ≠ 0) :
    S.get_log_cond_prob OOV_SCORE (earlier ++ [last]) =
      Except.ok (model.BaseScore (model.state_after earlier) (model.Index last)).1 := by
  simp only [Scorer.get_log_cond_prob, hmodel, Model.state_after]
  exact Scorer.get_log_cond_prob_loop_last model OOV_SCORE last earlier _ _ hvocab

/-- C5 on `example_model`: the sequence `<s>`, `a`, `b` scores `-34`, the score of
`b` after `a`; the sum of the three queries would be `-(1 + 13 + 34)`. -/
theorem Scorer.get_log_cond_prob_last_witness :
    (example_lm_scorer 3).get_log_cond_prob (-1000) ["<s>", "a", "b"] = Except.ok (-34) :=
  Scorer.get_log_cond_prob_last (example_lm_scorer 3) (example_model 3) (-1000)
    ["<s>", "a"] "b" rfl (by decide)

/-! ## Properties of sentence and sequence scoring -/

theorem size_sub_one (m : Nat) (h : 1 ≤ m) : size_sub m 1 = m - 1 := by
  simp [size_sub, h]

theorem Scorer.sentence_eq (S : Scorer σ α) (words : List String) (h1 : 1 ≤ S.max_order) :
    S.sentence words =
      if words = [] then List.replicate S.max_order START_TOKEN ++ [END_TOKEN]
      else List.replicate (S.max_order - 1) START_TOKEN ++ words ++ [END_TOKEN] := by
  cases words with
  | nil => simp [Scorer.sentence]
  | cons w rest => simp [Scorer.sentence, size_sub_one _ h1]

/-- C6: for an order of at least 1, `get_sent_log_prob` of a token list is
`get_log_prob` of the padded sequence: `max_order` start tokens and one end token
when the list is empty, otherwise `max_order - 1` start tokens, the list, and one
end token. -/
theorem Scorer.get_sent_log_prob_eq [Zero α] [Add α] (S : Scorer σ α) (OOV_SCORE : α)
    (words : List String) (h1 : 1 ≤ S.max_order) :
    S.get_sent_log_prob OOV_SCORE words =
      S.get_log_prob OOV_SCORE
        (if words = [] then List.replicate S.max_order START_TOKEN ++ [END_TOKEN]
         else List.replicate (S.max_order - 1) START_TOKEN ++ words ++ [END_TOKEN]) := by
  rw [Scorer.get_sent_log_prob, Scorer.sentence_eq S words h1]

/-- C6 on `example_model` with order 2: the empty sentence scores as two start
tokens and one end token do through `get_log_prob`. -/
theorem Scorer.get_sent_log_prob_eq_witness :
    (example_lm_scorer 2).get_sent_log_prob (-1000) [] =
      (example_lm_scorer 2).get_log_prob (-1000) ["<s>", "<s>", "</s>"] :=
  Scorer.get_sent_log_prob_eq (example_lm_scorer 2) (-1000) [] (by decide)

theorem Scorer.get_log_cond_prob_loop_ok (model : Model σ α) (OOV_SCORE : α) :
    ∀ (words : List String) (state : σ) (cond_prob : Option α),
      (words ≠ [] ∨ cond_prob ≠ none) →
      ∃ p, Scorer.get_log_cond_prob_loop model OOV_SCORE words state cond_prob =
        Except.ok p := by
  intro words
  induction words with
  | nil =>
    intro state cond_prob h
    cases cond_prob with
    | none => simp at h
    | some p => exact ⟨p, by simp [Scorer.get_log_cond_prob_loop]⟩
  | cons w rest ih =>
    intro state cond_prob _
    by_cases hw : model.Index w = 0
    · exact ⟨OOV_SCORE, by simp [Scorer.get_log_cond_prob_loop, hw]⟩
    · obtain ⟨p, hp⟩ := ih (model.BaseScore state (model.Index w)).2
        (some (model.BaseScore state (model.Index w)).1) (Or.inr (by simp))
      exact ⟨p, by simp [Scorer.get_log_cond_prob_loop, hw, hp]⟩

theorem Scorer.get_log_cond_prob_ok (S : Scorer σ α) (model : Model σ α) (OOV_SCORE : α)
    (words : List String) (hmodel : S.language_model = some model) (hne : words ≠ []) :
    ∃ p, S.get_log_cond_prob OOV_SCORE words = Except.ok p := by
  simp only [Scorer.get_log_cond_prob, hmodel]
  exact Scorer.get_log_cond_prob_loop_ok model OOV_SCORE words _ _ (Or.inl hne)

theorem Scorer.window_length (S : Scorer σ α) (words : List String) (i : Nat)
    (h : i + S.max_order ≤ words.length) : (S.window words i).length = S.max_order := by
  simp only [Scorer.window, List.length_take, List.length_drop]
  omega

theorem Scorer.get_log_prob_loop_sum [Add α] (S : Scorer σ α) (OOV_SCORE : α)
    (words : List String) (score : Nat → α) :
    ∀ (n i : Nat) (acc : α),
      (∀ j, i ≤ j → j < i + n →
        S.get_log_cond_prob OOV_SCORE (S.window words j) = Except.ok (score j)) →
      Scorer.get_log_prob_loop S OOV_SCORE words n i acc =
        Except.ok ((List.range' i n).foldl (fun a j => a + score j) acc) := by
  intro n
  induction n with
  | zero => intro i acc _; simp [Scorer.get_log_prob_loop]
  | succ k ih =>
    intro i acc h
    have hi := h i (Nat.le_refl i) (by omega)
    have hrest := ih (i + 1) (acc + score i) (fun j hj1 hj2 => h j (by omega) (by omega))
    simp only [Scorer.get_log_prob_loop, hi, hrest, List.range'_succ, List.foldl_cons]

theorem Scorer.get_log_prob_windows [Zero α] [Add α] (S : Scorer σ α) (model : Model σ α)
    (OOV_SCORE : α) (words : List String) (hmodel : S.language_model = some model)
    (h1 : 1 ≤ S.max_order) (hlen : S.max_order < words.length) :
    (∀ i, i ≤ words.length - S.max_order →
      S.get_log_cond_prob OOV_SCORE (S.window words i) =
        Except.ok (S.window_score OOV_SCORE words i)) ∧
    S.get_log_prob OOV_SCORE words =
      Except.ok ((List.range (words.length - S.max_order + 1)).foldl
        (fun acc i => acc + S.window_score OOV_SCORE words i) 0) := by
  have hw : ∀ i, i ≤ words.length - S.max_order →
      S.get_log_cond_prob OOV_SCORE (S.window words i) =
        Except.ok (S.window_score OOV_SCORE words i) := by
    intro i hi
    have hl := Scorer.window_length S words i (by omega)
    have hne : S.window words i ≠ [] := by
      intro h0
      rw [h0] at hl
      simp at hl
      omega
    obtain ⟨p, hp⟩ := Scorer.get_log_cond_prob_ok S model OOV_SCORE _ hmodel hne
    simp [Scorer.window_score, hp]
  refine ⟨hw, ?_⟩
  have hgt : words.length > S.max_order := hlen
  simp only [Scorer.get_log_prob, hgt, if_true, List.range_eq_range']
  exact Scorer.get_log_prob_loop_sum S OOV_SCORE words _ _ 0 0
    (fun j _ hj => hw j (by omega))

/-- C7: for a sequence longer than the order, and an order of at least 1,
`get_log_prob` scores the windows of width `max_order` that start at the positions
`0` to `length - max_order`, one after the other, and returns the sum of their
`get_log_cond_prob`, added up from zero in that order: `length - max_order + 1`
windows in all. -/
theorem Scorer.get_log_prob_eq_sum [Zero α] [Add α] (S : Scorer σ α) (model : Model σ α)
    (OOV_SCORE : α) (words : List String) (hmodel : S.language_model = some model)
    (h1 : 1 ≤ S.max_order) (hlen : S.max_order < words.length) :
    ∃ score : Nat → α,
      (∀ i, i ≤ words.length - S.max_order →
        ((words.drop i).take S.max_order).length = S.max_order ∧
        S.get_log_cond_prob OOV_SCORE ((words.drop i).take S.max_order) =
          Except.ok (score i)) ∧
      (List.range (words.length - S.max_order + 1)).length =
        words.length - S.max_order + 1 ∧
      S.get_log_prob OOV_SCORE words =
        Except.ok ((List.range (words.length - S.max_order + 1)).foldl
          (fun acc i => acc + score i) 0) := by
  obtain ⟨hw, hsum⟩ := Scorer.get_log_prob_windows S model OOV_SCORE words hmodel h1 hlen
  refine ⟨S.window_score OOV_SCORE words, ?_, List.length_range _, hsum⟩
  intro i hi
  exact ⟨Scorer.window_length S words i (by omega), hw i hi⟩

/-- C7 on `example_model` with order 2: the four tokens `<s>`, `a`, `b`, `</s>` give
three windows, scored `-13`, `-34` and `-42`. -/
theorem Scorer.get_log_prob_eq_sum_witness :
    (example_lm_scorer 2).get_log_prob (-1000) ["<s>", "a", "b", "</s>"] =
      Except.ok (0 + -13 + -34 + -42) := by
  obtain ⟨score, hw, _, hsum⟩ := Scorer.get_log_prob_eq_sum (example_lm_scorer 2)
    (example_model 2) (-1000) ["<s>", "a", "b", "</s>"] rfl (by decide) (by decide)
  have e0 : (Except.ok (-13) : Except Failure Int) = Except.ok (score 0) :=
    (hw 0 (by decide)).2
  have e1 : (Except.ok (-34) : Except Failure Int) = Except.ok (score 1) :=
    (hw 1 (by decide)).2
  have e2 : (Except.ok (-42) : Except Failure Int) = Except.ok (score 2) :=
    (hw 2 (by decide)).2
  injection e0 with e0
  injection e1 with e1
  injection e2 with e2
  rw [hsum, e0, e1, e2]
  rfl

theorem Scorer.padded_window_last (S : Scorer σ α) (words : List String) (i : Nat)
    (h1 : 1 ≤ S.max_order) (hi : i ≤ words.length) :
    (((List.replicate (S.max_order - 1) START_TOKEN ++ words ++ [END_TOKEN]).drop i).take
        S.max_order).getLast? = (words ++ [END_TOKEN])[i]? := by
  have hm : S.max_order ≠ 0 := by omega
  have hlt : i < (words ++ [END_TOKEN]).length := by
    simp only [List.length_append, List.length_singleton]
    omega
  rw [List.getLast?_take, if_neg hm, List.getElem?_drop, List.append_assoc,
    List.getElem?_append_right (by simp)]
  have hsub : i + (S.max_order - 1) - (List.replicate (S.max_order - 1) START_TOKEN).length
      = i := by
    simp
  rw [hsub, List.getElem?_eq_getElem hlt]
  rfl

/-- C8: for a non-empty word list of length `n` and an order of at least 1,
`get_sent_log_prob` is the sum, added up from zero, of exactly `n + 1` window
scores over the padded sequence (`max_order - 1` start tokens, the words, the end
token).  Window `i` has width `max_order`; its last token, the one that is scored,
is the `i`-th word for `i < n` and the end token for `i = n`. -/
theorem Scorer.get_sent_log_prob_windows [Zero α] [Add α] (S : Scorer σ α)
    (model : Model σ α) (OOV_SCORE : α) (words : List String)
    (hmodel : S.language_model = some model) (h1 : 1 ≤ S.max_order) (hne : words ≠ []) :
    ∃ score : Nat → α,
      (∀ i, i ≤ words.length →
        (((List.replicate (S.max_order - 1) START_TOKEN ++ words ++ [END_TOKEN]).drop i).take
          S.max_order).length = S.max_order ∧
        (((List.replicate (S.max_order - 1) START_TOKEN ++ words ++ [END_TOKEN]).drop i).take
          S.max_order).getLast? = (words ++ [END_TOKEN])[i]? ∧
        S.get_log_cond_prob OOV_SCORE
          (((List.replicate (S.max_order - 1) START_TOKEN ++ words ++ [END_TOKEN]).drop i).take
            S.max_order) = Except.ok (score i)) ∧
      (List.range (words.length + 1)).length = words.length + 1 ∧
      S.get_sent_log_prob OOV_SCORE words =
        Except.ok ((List.range (words.length + 1)).foldl (fun acc i => acc + score i) 0) := by
  have hs : S.sentence words =
      List.replicate (S.max_order - 1) START_TOKEN ++ words ++ [END_TOKEN] := by
    rw [Scorer.sentence_eq S words h1, if_neg hne]
  have hpos : 1 ≤ words.length := List.length_pos.mpr hne
  have hlen : (S.sentence words).length = S.max_order + words.length := by
    rw [hs]
    simp only [List.length_append, List.length_replicate, List.length_singleton]
    omega
  obtain ⟨hw, hsum⟩ := Scorer.get_log_prob_windows S model OOV_SCORE (S.sentence words)
    hmodel h1 (by omega)
  have hcount : (S.sentence words).length - S.max_order = words.length := by omega
  have hwl := fun i (hi : i ≤ words.length) =>
    Scorer.window_length S (S.sentence words) i (by omega)
  rw [hcount] at hw hsum
  simp only [Scorer.window] at hw hwl
  rw [hs] at hw hwl hsum
  refine ⟨S.window_score OOV_SCORE
    (List.replicate (S.max_order - 1) START_TOKEN ++ words ++ [END_TOKEN]), ?_,
    List.length_range _, ?_⟩
  · intro i hi
    exact ⟨hwl i hi, Scorer.padded_window_last S words i h1 hi, hw i hi⟩
  · rw [Scorer.get_sent_log_prob, hs]
    exact hsum

/-- C8 on `example_model` with order 2 and the words `a`, `b`: the padded sequence
is `<s>`, `a`, `b`, `</s>` and the result is the sum of the scores of the windows
`<s> a`, `a b` and `b </s>`. -/
theorem Scorer.get_sent_log_prob_windows_witness :
    (example_lm_scorer 2).sentence ["a", "b"] = ["<s>", "a", "b", "</s>"] ∧
    ∃ s1 s2 s3 : Int,
      (example_lm_scorer 2).get_log_cond_prob (-1000) ["<s>", "a"] = Except.ok s1 ∧
      (example_lm_scorer 2).get_log_cond_prob (-1000) ["a", "b"] = Except.ok s2 ∧
      (example_lm_scorer 2).get_log_cond_prob (-1000) ["b", "</s>"] = Except.ok s3 ∧
      (example_lm_scorer 2).get_sent_log_prob (-1000) ["a", "b"] =
        Except.ok (0 + s1 + s2 + s3) := by
  obtain ⟨score, hw, _, hsum⟩ := Scorer.get_sent_log_prob_windows (example_lm_scorer 2)
    (example_model 2) (-1000) ["a", "b"] rfl (by decide) (by decide)
  exact ⟨rfl, score 0, score 1, score 2, (hw 0 (by decide)).2.2, (hw 1 (by decide)).2.2,
    (hw 2 (by decide)).2.2, hsum⟩

/-! ## The precondition of `get_log_prob` -/

theorem Scorer.get_log_cond_prob_loop_ne_assertion (model : Model σ α) (OOV_SCORE : α) :
    ∀ (words : List String) (state : σ) (cond_prob : Option α),
      Scorer.get_log_cond_prob_loop model OOV_SCORE words state cond_prob ≠
        Except.error Failure.assertion := by
  intro words
  induction words with
  | nil =>
    intro state cond_prob
    cases cond_prob <;> simp [Scorer.get_log_cond_prob_loop]
  | cons w rest ih =>
    intro state cond_prob
    by_cases hw : model.Index w = 0
    · simp [Scorer.get_log_cond_prob_loop, hw]
    · simp only [Scorer.get_log_cond_prob_loop, hw, if_false]
      exact ih _ _

theorem Scorer.get_log_cond_prob_ne_assertion (S : Scorer σ α) (OOV_SCORE : α)
    (words : List String) :
    S.get_log_cond_prob OOV_SCORE words ≠ Except.error Failure.assertion := by
  unfold Scorer.get_log_cond_prob
  cases S.language_model with
  | none => simp
  | some model => exact Scorer.get_log_cond_prob_loop_ne_assertion model OOV_SCORE words _ _

theorem Scorer.get_log_prob_loop_ne_assertion [Add α] (S : Scorer σ α) (OOV_SCORE : α)
    (words : List String) :
    ∀ (n i : Nat) (score : α),
      Scorer.get_log_prob_loop S OOV_SCORE words n i score ≠
        Except.error Failure.assertion := by
  intro n
  induction n with
  | zero => intro i score; simp [Scorer.get_log_prob_loop]
  | succ k ih =>
    intro i score
    have hc := Scorer.get_log_cond_prob_ne_assertion S OOV_SCORE (S.window words i)
    simp only [Scorer.get_log_prob_loop]
    cases hres : S.get_log_cond_prob OOV_SCORE (S.window words i) with
    | error e =>
      rw [hres] at hc
      simpa using hc
    | ok p => exact ih _ _

/-- C9: the assertion of `get_log_prob` fails exactly on the sequences whose length
is at most `max_order`; a sequence of length exactly `max_order`, which holds one
window, fails it, and every longer sequence passes it. -/
theorem Scorer.get_log_prob_assertion [Zero α] [Add α] (S : Scorer σ α) (OOV_SCORE : α)
    (words : List String) :
    (S.get_log_prob OOV_SCORE words = Except.error Failure.assertion ↔
      words.length ≤ S.max_order) ∧
    (S.get_log_prob OOV_SCORE (List.replicate S.max_order START_TOKEN) =
      Except.error Failure.assertion) := by
  constructor
  · constructor
    · intro h
      by_contra hlen
      have hgt : words.length > S.max_order := by omega
      simp only [Scorer.get_log_prob, hgt, if_true] at h
      exact Scorer.get_log_prob_loop_ne_assertion S OOV_SCORE words _ _ _ h
    · intro hlen
      have hgt : ¬ words.length > S.max_order := by omega
      simp [Scorer.get_log_prob, hgt]
  · simp [Scorer.get_log_prob]

/-! ## The vocabulary classifier -/

theorem Scorer.classify_fold_false (vocabulary : List String) :
    vocabulary.foldl Scorer.classify_step false = false := by
  induction vocabulary with
  | nil => rfl
  | cons v rest ih => simpa [Scorer.classify_step] using ih

theorem Scorer.classify_fold (vocabulary : List String) :
    vocabulary.foldl Scorer.classify_step true = false ↔
      ∃ v ∈ vocabulary, v ≠ UNK_TOKEN ∧ v ≠ START_TOKEN ∧ v ≠ END_TOKEN ∧
        1 < get_utf8_str_len v := by
  induction vocabulary with
  | nil => simp
  | cons v rest ih =>
    by_cases hv : v ≠ UNK_TOKEN ∧ v ≠ START_TOKEN ∧ v ≠ END_TOKEN ∧ 1 < get_utf8_str_len v
    · have hstep : Scorer.classify_step true v = false := by
        obtain ⟨h1, h2, h3, h4⟩ := hv
        simp [Scorer.classify_step, h1, h2, h3, h4]
      rw [List.foldl_cons, hstep, Scorer.classify_fold_false]
      simp only [true_iff]
      exact ⟨v, List.mem_cons_self v rest, hv⟩
    · have hstep : Scorer.classify_step true v = true := by
        simp only [Scorer.classify_step, Bool.true_and, gt_iff_lt, Bool.and_eq_true,
          bne_iff_ne, ne_eq, decide_eq_true_eq, ite_eq_right_iff]
        intro h
        exact absurd ⟨h.1.1.1, h.1.1.2, h.1.2, h.2⟩ hv
      rw [List.foldl_cons, hstep, ih]
      constructor
      · rintro ⟨u, hu, hq⟩
        exact ⟨u, List.mem_cons_of_mem v hu, hq⟩
      · rintro ⟨u, hu, hq⟩
        rcases List.mem_cons.mp hu with rfl | hmem
        · exact absurd hq hv
        · exact ⟨u, hmem, hq⟩

/-- C10: the scorer constructed on a loaded vocabulary is word-based exactly when
some entry other than `<unk>`, `<s>`, `</s>` has more than one codepoint, and
character-based exactly when every other entry has at most one (in particular when
there is none); a vocabulary with the same entries in another order gets the same
verdict. -/
theorem Scorer.new_is_character_based (alpha beta : α) (file : LoadedModel σ α) :
    ∃ S : Scorer σ α, Scorer.new alpha beta (some file) = some S ∧
      (S.is_character_based = false ↔
        ∃ v ∈ file.vocabulary, v ≠ UNK_TOKEN ∧ v ≠ START_TOKEN ∧ v ≠ END_TOKEN ∧
          1 < get_utf8_str_len v) ∧
      (S.is_character_based = true ↔
        ∀ v ∈ file.vocabulary, v ≠ UNK_TOKEN → v ≠ START_TOKEN → v ≠ END_TOKEN →
          get_utf8_str_len v ≤ 1) ∧
      (∀ (file2 : LoadedModel σ α) (S2 : Scorer σ α),
        file2.vocabulary.Perm file.vocabulary →
        Scorer.new alpha beta (some file2) = some S2 →
        S2.is_character_based = S.is_character_based) := by
  refine ⟨_, rfl, Scorer.classify_fold file.vocabulary, ?_, ?_⟩
  · rw [← Bool.not_eq_false, Scorer.classify_fold file.vocabulary]
    constructor
    · intro h v hv h1 h2 h3
      by_contra h4
      exact h ⟨v, hv, h1, h2, h3, by omega⟩
    · rintro h ⟨v, hv, h1, h2, h3, h4⟩
      have := h v hv h1 h2 h3
      omega
  · intro file2 S2 hperm hnew
    simp only [Scorer.new, Scorer.load_LM, Option.some.injEq] at hnew
    subst hnew
    have h2 := Scorer.classify_fold file2.vocabulary
    have h1 := Scorer.classify_fold file.vocabulary
    have hiff : (file2.vocabulary.foldl Scorer.classify_step true = false ↔
        file.vocabulary.foldl Scorer.classify_step true = false) := by
      rw [h1, h2]
      constructor
      · rintro ⟨v, hv, hq⟩
        exact ⟨v, hperm.mem_iff.mp hv, hq⟩
      · rintro ⟨v, hv, hq⟩
        exact ⟨v, hperm.mem_iff.mpr hv, hq⟩
    show file2.vocabulary.foldl Scorer.classify_step true =
      file.vocabulary.foldl Scorer.classify_step true
    cases hA : file2.vocabulary.foldl Scorer.classify_step true <;>
      cases hB : file.vocabulary.foldl Scorer.classify_step true <;> simp_all

/-! ## The symbol table -/

theorem Scorer.set_char_map_loop_spec :
    ∀ (L : List String) (i : Nat) (S : Scorer σ α),
      (Scorer.set_char_map_loop L i S).char_list = S.char_list ∧
      (" " ∉ L → (Scorer.set_char_map_loop L i S).SPACE_ID = S.SPACE_ID) ∧
      (" " ∈ L → ∃ k, k < L.length ∧
        (Scorer.set_char_map_loop L i S).SPACE_ID = ((i + k : Nat) : Int) ∧
        L[k]? = some " " ∧ ∀ j, k < j → L[j]? ≠ some " ") := by
  intro L
  induction L with
  | nil =>
    intro i S
    simp [Scorer.set_char_map_loop]
  | cons e rest ih =>
    intro i S
    by_cases he : e = " "
    · obtain ⟨h1, h2, h3⟩ := ih (i + 1)
        { S with SPACE_ID := (i : Int), char_map := Function.update S.char_map ' ' (some i) }
      simp only [Scorer.set_char_map_loop, he, if_true]
      refine ⟨h1, fun hn => absurd (List.mem_cons_self _ _) hn, fun _ => ?_⟩
      by_cases hr : " " ∈ rest
      · obtain ⟨k, hk, hs, hget, hlast⟩ := h3 hr
        refine ⟨k + 1, by simpa using hk, ?_, by simpa using hget, ?_⟩
        · rw [hs]
          congr 1
          omega
        · intro j hj
          obtain ⟨j2, rfl⟩ : ∃ j2, j = j2 + 1 := ⟨j - 1, by omega⟩
          simpa using hlast j2 (by omega)
      · refine ⟨0, by simp, ?_, by simp, ?_⟩
        · rw [h2 hr]
          simp
        · intro j hj
          obtain ⟨j2, rfl⟩ : ∃ j2, j = j2 + 1 := ⟨j - 1, by omega⟩
          intro hget
          rw [List.getElem?_cons_succ] at hget
          exact hr (List.getElem?_mem hget)
    · have hmem : " " ∈ e :: rest ↔ " " ∈ rest := by
        constructor
        · intro h
          rcases List.mem_cons.mp h with h | h
          · exact absurd h.symm he
          · exact h
        · exact List.mem_cons_of_mem e
      have hshift : ∀ (R : Scorer σ α), R.SPACE_ID = S.SPACE_ID → R.char_list = S.char_list →
          (Scorer.set_char_map_loop rest (i + 1) R).char_list = S.char_list ∧
          (" " ∉ e :: rest → (Scorer.set_char_map_loop rest (i + 1) R).SPACE_ID = S.SPACE_ID) ∧
          (" " ∈ e :: rest → ∃ k, k < (e :: rest).length ∧
            (Scorer.set_char_map_loop rest (i + 1) R).SPACE_ID = ((i + k : Nat) : Int) ∧
            (e :: rest)[k]? = some " " ∧ ∀ j, k < j → (e :: rest)[j]? ≠ some " ") := by
        intro R hR hC
        obtain ⟨h1, h2, h3⟩ := ih (i + 1) R
        refine ⟨h1.trans hC, fun hn => (h2 (fun h => hn (hmem.mpr h))).trans hR, fun hin => ?_⟩
        obtain ⟨k, hk, hs, hget, hlast⟩ := h3 (hmem.mp hin)
        refine ⟨k + 1, by simpa using hk, ?_, by simpa using hget, ?_⟩
        · rw [hs]
          congr 1
          omega
        · intro j hj
          obtain ⟨j2, rfl⟩ : ∃ j2, j = j2 + 1 := ⟨j - 1, by omega⟩
          simpa using hlast j2 (by omega)
      by_cases hb : e.utf8ByteSize = 1
      · simp only [Scorer.set_char_map_loop, he, if_false, hb, if_true]
        exact hshift _ rfl rfl
      · simp only [Scorer.set_char_map_loop, he, if_false, hb]
        exact hshift _ rfl rfl

/-- C11: after `set_char_map(L)` on a freshly constructed scorer the symbol table is
`L`; when `L` has no entry equal to the single space, `_SPACE_ID` is `-1`; when it
has one, `_SPACE_ID` is an index of such an entry, the last one when there are
several. -/
theorem Scorer.set_char_map_space_id (alpha beta : α) (file : LoadedModel σ α)
    (L : List String) :
    ∃ S : Scorer σ α, Scorer.new alpha beta (some file) = some S ∧
      (S.set_char_map L).char_list = L ∧
      (" " ∉ L → (S.set_char_map L).SPACE_ID = -1) ∧
      (" " ∈ L → ∃ k, k < L.length ∧ (S.set_char_map L).SPACE_ID = (k : Int) ∧
        L[k]? = some " " ∧ ∀ j, k < j → L[j]? ≠ some " ") := by
  refine ⟨_, rfl, ?_⟩
  obtain ⟨h1, h2, h3⟩ := Scorer.set_char_map_loop_spec L 0
    ({ ({ alpha := alpha, beta := beta, is_character_based :=
            file.vocabulary.foldl Scorer.classify_step true,
          language_model := some file.model, dictionary := none,
          max_order := file.model.Order, SPACE_ID := -1, vocabulary := file.vocabulary,
          char_list := [], char_map := fun _ => none } : Scorer σ α) with
      char_list := L, char_map := fun _ => none })
  refine ⟨h1, h2, fun hin => ?_⟩
  obtain ⟨k, hk, hs, hget, hlast⟩ := h3 hin
  exact ⟨k, hk, by simpa using hs, hget, hlast⟩

/-- C13: `reset_params(alpha, beta)` leaves the two weights equal to its arguments
and every other member as it was. -/
theorem Scorer.reset_params_frame (S : Scorer σ α) (alpha beta : α) :
    (S.reset_params alpha beta).alpha = alpha ∧
    (S.reset_params alpha beta).beta = beta ∧
    (S.reset_params alpha beta).is_character_based = S.is_character_based ∧
    (S.reset_params alpha beta).max_order = S.max_order ∧
    (S.reset_params alpha beta).vocabulary = S.vocabulary ∧
    (S.reset_params alpha beta).char_list = S.char_list ∧
    (S.reset_params alpha beta).char_map = S.char_map ∧
    (S.reset_params alpha beta).SPACE_ID = S.SPACE_ID ∧
    (S.reset_params alpha beta).language_model = S.language_model ∧
    (S.reset_params alpha beta).dictionary = S.dictionary :=
  ⟨rfl, rfl, rfl, rfl, rfl, rfl, rfl, rfl, rfl, rfl⟩

/-! ### Setting the symbol table twice -/

theorem Scorer.set_char_map_loop_char_map :
    ∀ (L : List String) (i : Nat) (S T : Scorer σ α), S.char_map = T.char_map →
      (Scorer.set_char_map_loop L i S).char_map = (Scorer.set_char_map_loop L i T).char_map := by
  intro L
  induction L with
  | nil => intro i S T h; simpa [Scorer.set_char_map_loop] using h
  | cons e rest ih =>
    intro i S T h
    simp only [Scorer.set_char_map_loop]
    split_ifs
    · exact ih _ _ _ (by simp [h])
    · exact ih _ _ _ (by simp [h])
    · exact ih _ _ _ h

theorem Scorer.set_char_map_loop_space_id :
    ∀ (L : List String) (i : Nat) (S T : Scorer σ α),
      (S.SPACE_ID = T.SPACE_ID ∨ " " ∈ L) →
      (Scorer.set_char_map_loop L i S).SPACE_ID = (Scorer.set_char_map_loop L i T).SPACE_ID := by
  intro L
  induction L with
  | nil =>
    intro i S T h
    rcases h with h | h
    · simpa [Scorer.set_char_map_loop] using h
    · simp at h
  | cons e rest ih =>
    intro i S T h
    by_cases he : e = " "
    · simp only [Scorer.set_char_map_loop, he, if_true]
      exact ih _ _ _ (Or.inl rfl)
    · have hrest : S.SPACE_ID = T.SPACE_ID ∨ " " ∈ rest := by
        rcases h with h | h
        · exact Or.inl h
        · rcases List.mem_cons.mp h with h | h
          · exact absurd h.symm he
          · exact Or.inr h
      simp only [Scorer.set_char_map_loop, he, if_false]
      split_ifs
      · exact ih _ _ _ hrest
      · exact ih _ _ _ hrest

theorem Scorer.set_char_map_char_list (S : Scorer σ α) (L : List String) :
    (S.set_char_map L).char_list = L :=
  (Scorer.set_char_map_loop_spec L 0
    { S with char_list := L, char_map := fun _ => none }).1

theorem Scorer.set_char_map_no_space (S : Scorer σ α) (L : List String) (h : " " ∉ L) :
    (S.set_char_map L).SPACE_ID = S.SPACE_ID :=
  (Scorer.set_char_map_loop_spec L 0
    { S with char_list := L, char_map := fun _ => none }).2.1 h

/-- What a second `set_char_map` overwrites: the symbol table and the character map
are those of the second list alone; `_SPACE_ID` is that of the second list alone
when the second list has a space entry, and is left as the first call set it when
the second list has none. -/
theorem Scorer.set_char_map_twice (S : Scorer σ α) (L1 L2 : List String) :
    ((S.set_char_map L1).set_char_map L2).char_list = (S.set_char_map L2).char_list ∧
    ((S.set_char_map L1).set_char_map L2).char_map = (S.set_char_map L2).char_map ∧
    (" " ∈ L2 →
      ((S.set_char_map L1).set_char_map L2).SPACE_ID = (S.set_char_map L2).SPACE_ID) ∧
    (" " ∉ L2 →
      ((S.set_char_map L1).set_char_map L2).SPACE_ID = (S.set_char_map L1).SPACE_ID) := by
  refine ⟨?_, ?_, ?_, ?_⟩
  · rw [Scorer.set_char_map_char_list, Scorer.set_char_map_char_list]
  · exact Scorer.set_char_map_loop_char_map L2 0 _ _ rfl
  · intro h
    exact Scorer.set_char_map_loop_space_id L2 0 _ _ (Or.inr h)
  · intro h
    exact Scorer.set_char_map_no_space _ L2 h

/-- C17 at the lists `[" "]` and `["a"]`: after `set_char_map([" "])` followed by
`set_char_map(["a"])` on a freshly constructed scorer `_SPACE_ID` is still `0`, the
index of the space in the first list, whereas `set_char_map(["a"])` alone leaves
the sentinel `-1`. -/
theorem Scorer.set_char_map_stale_space_id :
    Scorer.new 1 1 (some (example_file 2)) = some (example_lm_scorer 2) ∧
    (((example_lm_scorer 2).set_char_map [" "]).set_char_map ["a"]).SPACE_ID = 0 ∧
    ((example_lm_scorer 2).set_char_map ["a"]).SPACE_ID = -1 ∧
    " " ∈ [" "] ∧ " " ∉ ["a"] :=
  ⟨rfl, rfl, rfl, by decide, by decide⟩

/-! ## Sentence scoring and the assertion -/

theorem Scorer.sentence_length (S : Scorer σ α) (words : List String) (h1 : 1 ≤ S.max_order) :
    (S.sentence words).length =
      if words = [] then S.max_order + 1 else S.max_order + words.length := by
  rw [Scorer.sentence_eq S words h1]
  by_cases hw : words = []
  · simp [hw]
  · simp only [hw, if_false, List.length_append, List.length_replicate, List.length_singleton]
    omega

/-- C15: for an order of at least 1, the sequence that `get_sent_log_prob` hands to
`get_log_prob` has length `max_order + 1` for the empty word list and
`max_order + length` otherwise, which exceeds `max_order`; so `get_sent_log_prob`
never ends in the assertion failure, and every window that the loop of
`get_log_prob` cuts out lies inside the sequence. -/
theorem Scorer.get_sent_log_prob_assertion_free [Zero α] [Add α] (S : Scorer σ α)
    (OOV_SCORE : α) (words : List String) (h1 : 1 ≤ S.max_order) :
    ((S.sentence words).length =
      if words = [] then S.max_order + 1 else S.max_order + words.length) ∧
    S.max_order < (S.sentence words).length ∧
    S.get_sent_log_prob OOV_SCORE words ≠ Except.error Failure.assertion ∧
    (∀ i, i < (S.sentence words).length - S.max_order + 1 →
      i + S.max_order ≤ (S.sentence words).length ∧
      (S.window (S.sentence words) i).length = S.max_order) := by
  have hlen := Scorer.sentence_length S words h1
  have hgt : S.max_order < (S.sentence words).length := by
    rw [hlen]
    by_cases hw : words = []
    · simp [hw]
    · have := List.length_pos.mpr hw
      simp only [hw, if_false]
      omega
  refine ⟨hlen, hgt, ?_, ?_⟩
  · have hgt2 : (S.sentence words).length > S.max_order := hgt
    simp only [Scorer.get_sent_log_prob, Scorer.get_log_prob, hgt2, if_true]
    exact Scorer.get_log_prob_loop_ne_assertion S OOV_SCORE _ _ _ _
  · intro i hi
    have hle : i + S.max_order ≤ (S.sentence words).length := by omega
    exact ⟨hle, Scorer.window_length S _ i hle⟩

/-- C15 on `example_model` with order 2 and the empty word list: the sequence
handed on has length 3 and the call ends with the sum of two window scores. -/
theorem Scorer.get_sent_log_prob_assertion_free_witness :
    ((example_lm_scorer 2).sentence []).length = 3 ∧
    (example_lm_scorer 2).get_sent_log_prob (-1000) [] = Except.ok (0 + -11 + -12) :=
  ⟨(Scorer.get_sent_log_prob_assertion_free (example_lm_scorer 2) (-1000) [] (by decide)).1,
    rfl⟩

/-! ## Out-of-vocabulary tokens under `get_log_prob` -/

theorem Scorer.mem_window (S : Scorer σ α) (words : List String) (i j : Nat) (w : String)
    (hget : words[j]? = some w) (hij : i ≤ j) (hji : j < i + S.max_order) :
    w ∈ (words.drop i).take S.max_order := by
  apply List.getElem?_mem (n := j - i)
  rw [List.getElem?_take_of_lt (by omega), List.getElem?_drop]
  have : i + (j - i) = j := by omega
  rw [this, hget]

/-- C16: for a sequence longer than the order, and an order of at least 1,
`get_log_prob` scores all `length - max_order + 1` windows and sums their scores;
a window that holds an out-of-vocabulary token contributes exactly `OOV_SCORE`,
so an out-of-vocabulary token at position `j` contributes `OOV_SCORE` once for
every window that covers `j`. -/
theorem Scorer.get_log_prob_oov_per_window [Zero α] [Add α] (S : Scorer σ α)
    (model : Model σ α) (OOV_SCORE : α) (words : List String)
    (hmodel : S.language_model = some model) (h1 : 1 ≤ S.max_order)
    (hlen : S.max_order < words.length) :
    ∃ score : Nat → α,
      (∀ i, i ≤ words.length - S.max_order →
        S.get_log_cond_prob OOV_SCORE ((words.drop i).take S.max_order) =
          Except.ok (score i)) ∧
      S.get_log_prob OOV_SCORE words =
        Except.ok ((List.range (words.length - S.max_order + 1)).foldl
          (fun acc i => acc + score i) 0) ∧
      (∀ i, i ≤ words.length - S.max_order →
        (∃ w ∈ (words.drop i).take S.max_order, model.Index w = 0) →
        score i = OOV_SCORE) ∧
      (∀ j w, words[j]? = some w → model.Index w = 0 →
        ∀ i, i ≤ j → j < i + S.max_order → i ≤ words.length - S.max_order →
          score i = OOV_SCORE) := by
  obtain ⟨hw, hsum⟩ := Scorer.get_log_prob_windows S model OOV_SCORE words hmodel h1 hlen
  have hoov : ∀ i, i ≤ words.length - S.max_order →
      (∃ w ∈ (words.drop i).take S.max_order, model.Index w = 0) →
      S.window_score OOV_SCORE words i = OOV_SCORE := by
    intro i hi hex
    have hres := hw i hi
    have hcall : S.get_log_cond_prob OOV_SCORE (S.window words i) = Except.ok OOV_SCORE := by
      simp only [Scorer.get_log_cond_prob, hmodel]
      exact Scorer.get_log_cond_prob_loop_oov model OOV_SCORE _ _ _ hex
    rw [hcall] at hres
    injection hres with hres
    exact hres.symm
  refine ⟨S.window_score OOV_SCORE words, hw, hsum, hoov, ?_⟩
  intro j w hget h0 i hij hji hi
  exact hoov i hi ⟨w, Scorer.mem_window S words i j w hget hij hji, h0⟩

/-- C16 on `example_model` with order 2: in `<s>`, `zebra`, `a`, `</s>` the unknown
word `zebra` lies in the first two of the three windows; each of the two
contributes `OOV_SCORE`, here `-1000`, and the third is scored by the model. -/
theorem Scorer.get_log_prob_oov_per_window_witness :
    (example_lm_scorer 2).get_log_prob (-1000) ["<s>", "zebra", "a", "</s>"] =
      Except.ok (0 + -1000 + -1000 + -32) := by
  obtain ⟨score, hw, hsum, _, hcover⟩ := Scorer.get_log_prob_oov_per_window
    (example_lm_scorer 2) (example_model 2) (-1000) ["<s>", "zebra", "a", "</s>"] rfl
    (by decide) (by decide)
  have e0 : score 0 = -1000 := hcover 1 "zebra" rfl rfl 0 (by decide) (by decide) (by decide)
  have e1 : score 1 = -1000 := hcover 1 "zebra" rfl rfl 1 (by decide) (by decide) (by decide)
  have e2 : (Except.ok (-32) : Except Failure Int) = Except.ok (score 2) := hw 2 (by decide)
  injection e2 with e2
  rw [hsum]
  show (Except.ok (0 + score 0 + score 1 + score 2) : Except Failure Int) = _
  rw [e0, e1, ← e2]

/-! ## Empty tokens in word-based mode -/

theorem Scorer.vec2str_data_aux (S : Scorer σ α) :
    ∀ (input : List Nat) (word : String),
      (input.foldl (fun word ind => word ++ S.char_list.getD ind "") word).data =
        word.data ++ (input.map (fun ind => (S.char_list.getD ind "").data)).flatten := by
  intro input
  induction input with
  | nil => intro word; simp
  | cons i rest ih =>
    intro word
    rw [List.foldl_cons, ih]
    simp [List.append_assoc]

theorem Scorer.vec2str_data (S : Scorer σ α) (input : List Nat) :
    (S.vec2str input).data =
      (input.map (fun ind => (S.char_list.getD ind "").data)).flatten := by
  rw [Scorer.vec2str, Scorer.vec2str_data_aux]
  rfl

theorem Scorer.vec2str_ne_empty (S : Scorer σ α) (input : List Nat) (hne : input ≠ [])
    (hstr : ∀ c ∈ input, S.char_list.getD c "" ≠ "") : S.vec2str input ≠ "" := by
  cases input with
  | nil => exact absurd rfl hne
  | cons c rest =>
    intro h
    have hd := Scorer.vec2str_data S (c :: rest)
    rw [h] at hd
    have hc : (S.char_list.getD c "").data = [] := by
      have hd2 := hd.symm
      simp only [List.map_cons, List.flatten_cons, List.append_eq_nil] at hd2
      exact hd2.1
    exact hstr c (List.mem_cons_self c rest) (String.ext hc)

/-- C18 as stated fails: in word-based mode with order 3, on the node at the end of
the path `a b _`, whose own symbol is the boundary symbol, and on the node at the
end of the path `_ a`, whose first symbol is the boundary symbol, `make_ngram`
returns an empty token, which is neither the sentence-start token nor a non-empty
word. -/
theorem Scorer.make_ngram_word_based_empty_token :
    (example_scorer false 3).is_character_based = false ∧
    1 ≤ (example_scorer false 3).max_order ∧
    (example_scorer false 3).SPACE_ID = 2 ∧
    PathTrie.root.extend [0, 1, 2] ≠ PathTrie.root ∧
    Scorer.make_ngram PathTrie.get_path_vec (example_scorer false 3)
      (PathTrie.root.extend [0, 1, 2]) = ["<s>", "ba", ""] ∧
    PathTrie.root.extend [2, 0] ≠ PathTrie.root ∧
    Scorer.make_ngram PathTrie.get_path_vec (example_scorer false 3)
      (PathTrie.root.extend [2, 0]) = ["<s>", "", "a"] ∧
    "" ≠ START_TOKEN :=
  ⟨rfl, by decide, rfl, by decide, rfl, by decide, rfl, by decide⟩

/-- C18, amended: in word-based mode, on the last node of a path that spells
`m ≥ 1` non-empty words separated by single boundary symbols (no leading and no
trailing boundary symbol), over symbols whose symbol-table strings are not empty,
every token that `make_ngram` returns is the sentence-start token or a non-empty
word. -/
theorem Scorer.make_ngram_word_based_nonempty (S : Scorer σ α) (sp : Nat)
    (words : List (List Nat)) (hc : S.is_character_based = false)
    (hsp : S.SPACE_ID = (sp : Int)) (hm : 1 ≤ words.length) (hne : ∀ w ∈ words, w ≠ [])
    (hfree : ∀ w ∈ words, sp ∉ w)
    (hstr : ∀ w ∈ words, ∀ c ∈ w, S.char_list.getD c "" ≠ "") :
    ∀ token ∈ Scorer.make_ngram PathTrie.get_path_vec S
        (PathTrie.root.extend (List.intercalate [sp] words)),
      token = START_TOKEN ∨ token ≠ "" := by
  have hwords : words ≠ [] := by
    intro h
    rw [h] at hm
    simp at hm
  have hfree2 : ∀ w ∈ words, ∀ c ∈ w, (c : Int) ≠ S.SPACE_ID := by
    intro w hw c hcw heq
    rw [hsp] at heq
    have hcs : c = sp := by exact_mod_cast heq
    exact hfree w hw (hcs ▸ hcw)
  rw [Scorer.make_ngram_word_based_tokens S sp words hc (fun _ => hsp) hwords hfree2]
  intro token htoken
  rcases List.mem_append.mp htoken with h | h
  · exact Or.inl (List.eq_of_mem_replicate h)
  · obtain ⟨w, hw, rfl⟩ := List.mem_map.mp h
    have hw2 : w ∈ words := List.mem_of_mem_drop hw
    have hrev : w.reverse ≠ [] := fun h0 => hne w hw2 (List.reverse_eq_nil_iff.mp h0)
    exact Or.inr (Scorer.vec2str_ne_empty S w.reverse hrev
      (fun c hcw => hstr w hw2 c (List.mem_reverse.mp hcw)))

/-- C18, amended, at the path `c _ a b` with order 3: the tokens are `<s>`, `c` and
`ba`. -/
theorem Scorer.make_ngram_word_based_nonempty_witness :
    Scorer.make_ngram PathTrie.get_path_vec (example_scorer false 3)
      (PathTrie.root.extend [3, 2, 0, 1]) = ["<s>", "c", "ba"] ∧
    ∀ token ∈ Scorer.make_ngram PathTrie.get_path_vec (example_scorer false 3)
        (PathTrie.root.extend [3, 2, 0, 1]),
      token = START_TOKEN ∨ token ≠ "" :=
  ⟨rfl, Scorer.make_ngram_word_based_nonempty (example_scorer false 3) 2 [[3], [0, 1]] rfl rfl
    (by decide) (by decide) (by decide) (by decide)⟩

/-! ## The dictionary automaton -/

/-- C14: `fill_dictionary`, with either value of `add_space`, stores the automaton
that `Minimize` leaves of what `Determinize` makes of what `RmEpsilon` leaves of
the filled automaton.  When the library's epsilon removal leaves no epsilon
transition, its determinization of an epsilon-free automaton is deterministic and
epsilon-free, and its minimization keeps both, the stored automaton is
deterministic and has no epsilon transition. -/
theorem Scorer.fill_dictionary_deterministic (lib : FstLibrary)
    (add_word_to_dictionary :
      String → (String → Option Nat) → Bool → Int → StdVectorFst → Bool × StdVectorFst)
    (S : Scorer σ α) (add_space : Bool)
    (hrm : ∀ f, (lib.RmEpsilon f).epsilon_free)
    (hdet : ∀ f, f.epsilon_free →
      (lib.Determinize f).deterministic ∧ (lib.Determinize f).epsilon_free)
    (hmin : ∀ f, f.deterministic → f.epsilon_free →
      (lib.Minimize f).deterministic ∧ (lib.Minimize f).epsilon_free) :
    ∃ d, (Scorer.fill_dictionary lib add_word_to_dictionary S add_space).dictionary = some d ∧
      d.deterministic ∧ d.epsilon_free := by
  refine ⟨_, rfl, ?_⟩
  have h1 := hdet _ (hrm
    (S.vocabulary.foldl
      (fun (state : StdVectorFst × Nat) word =>
        ((add_word_to_dictionary word S.reverse_map add_space S.SPACE_ID state.1).2,
          state.2 +
            (if (add_word_to_dictionary word S.reverse_map add_space S.SPACE_ID state.1).1
              then 1 else 0)))
      ({ start := none, finals := [], arcs := [] }, 0)).1)
  exact hmin _ h1.1 h1.2

theorem example_library_rm_epsilon (f : StdVectorFst) :
    (example_library.RmEpsilon f).epsilon_free := by
  intro arc harc
  simp only [example_library, List.mem_filter, decide_eq_true_eq] at harc
  exact harc.2

theorem example_library_determinize (f : StdVectorFst) (h : f.epsilon_free) :
    (example_library.Determinize f).deterministic ∧
      (example_library.Determinize f).epsilon_free := by
  constructor
  · simp only [StdVectorFst.deterministic, example_library, List.Nodup, List.pairwise_map]
    exact List.pairwise_pwFilter _
  · intro arc harc
    simp only [example_library] at harc
    exact h arc (List.pwFilter_subset _ harc)

/-- C14 on the stand-in library, with the symbol table `e`, `a`, `b`, space and the
vocabulary of `example_model`: the stored automaton has the two arcs `0 -a-> 1` and
`0 -b-> 2`. -/
theorem Scorer.fill_dictionary_deterministic_witness :
    ∃ d, (Scorer.fill_dictionary example_library example_add_word example_table_scorer
        false).dictionary = some d ∧ d.deterministic ∧ d.epsilon_free :=
  Scorer.fill_dictionary_deterministic example_library example_add_word example_table_scorer
    false example_library_rm_epsilon example_library_determinize (fun _ h1 h2 => ⟨h1, h2⟩)

/-! ## Ids to text and back -/

theorem Scorer.reverse_map_loop_not_mem :
    ∀ (L : List String) (i : Nat) (char_map : String → Option Nat) (s : String),
      s ∉ L → Scorer.reverse_map_loop L i char_map s = char_map s := by
  intro L
  induction L with
  | nil => intro i char_map s _; rfl
  | cons e rest ih =>
    intro i char_map s hs
    have hne : s ≠ e := fun h => hs (h ▸ List.mem_cons_self _ _)
    have hrest : s ∉ rest := fun h => hs (List.mem_cons_of_mem e h)
    rw [Scorer.reverse_map_loop, ih _ _ _ hrest, Function.update_noteq hne]

theorem Scorer.reverse_map_loop_nodup :
    ∀ (L : List String) (i : Nat) (char_map : String → Option Nat) (k : Nat) (s : String),
      L.Nodup → L[k]? = some s → Scorer.reverse_map_loop L i char_map s = some (i + k) := by
  intro L
  induction L with
  | nil => intro i char_map k s _ h; simp at h
  | cons e rest ih =>
    intro i char_map k s hnodup hget
    have hn := List.nodup_cons.mp hnodup
    cases k with
    | zero =>
      simp only [List.getElem?_cons_zero, Option.some.injEq] at hget
      subst hget
      rw [Scorer.reverse_map_loop, Scorer.reverse_map_loop_not_mem rest _ _ _ hn.1,
        Function.update_same]
      rfl
    | succ k2 =>
      rw [List.getElem?_cons_succ] at hget
      rw [Scorer.reverse_map_loop, ih (i + 1) _ k2 s hn.2 hget]
      congr 1
      omega

theorem Scorer.reverse_map_of_nodup (S : Scorer σ α) (k : Nat) (hnodup : S.char_list.Nodup)
    (hk : k < S.char_list.length) : S.reverse_map (S.char_list.getD k "") = some k := by
  have hget : S.char_list[k]? = some (S.char_list.getD k "") := by
    simp [List.getD_eq_getElem?_getD, List.getElem?_eq_getElem hk]
  have h := Scorer.reverse_map_loop_nodup S.char_list 0 (fun _ => none) k _ hnodup hget
  simpa [Scorer.reverse_map] using h

/-- C12 as stated fails.  With the symbol table `a`, `a` the valid id sequence `[0]`
is the text `a`, which the reversed symbol table of `fill_dictionary` converts back
to `[1]`; no text at all is converted to id `0`.  With the symbol table `ab` the
valid id sequence `[0]` is the text `ab`, which is not converted back at all. -/
theorem Scorer.vec2str_round_trip_fails :
    (((example_lm_scorer 2).set_char_map ["a", "a"]).char_list = ["a", "a"] ∧
      word_to_ids ((example_lm_scorer 2).set_char_map ["a", "a"]).reverse_map
        (((example_lm_scorer 2).set_char_map ["a", "a"]).vec2str [0]) = some [1] ∧
      ((example_lm_scorer 2).set_char_map ["a", "a"]).reverse_map "a" = some 1 ∧
      ¬ (∀ ids : List Nat,
        (∀ i ∈ ids, i < ((example_lm_scorer 2).set_char_map ["a", "a"]).char_list.length) →
        word_to_ids ((example_lm_scorer 2).set_char_map ["a", "a"]).reverse_map
          (((example_lm_scorer 2).set_char_map ["a", "a"]).vec2str ids) = some ids)) ∧
    (((example_lm_scorer 2).set_char_map ["ab"]).char_list = ["ab"] ∧
      word_to_ids ((example_lm_scorer 2).set_char_map ["ab"]).reverse_map
        (((example_lm_scorer 2).set_char_map ["ab"]).vec2str [0]) = none) := by
  refine ⟨⟨rfl, rfl, rfl, ?_⟩, rfl, rfl⟩
  intro h
  have h0 := h [0] (by decide)
  have h1 : word_to_ids ((example_lm_scorer 2).set_char_map ["a", "a"]).reverse_map
      (((example_lm_scorer 2).set_char_map ["a", "a"]).vec2str [0]) = some [1] := rfl
  rw [h1] at h0
  simp at h0

theorem Scorer.chars_to_ids_round_trip (S : Scorer σ α) (hnodup : S.char_list.Nodup)
    (hone : ∀ s ∈ S.char_list, s.length = 1) :
    ∀ (ids : List Nat), (∀ i ∈ ids, i < S.char_list.length) →
      chars_to_ids S.reverse_map
        ((ids.map (fun ind => (S.char_list.getD ind "").data)).flatten) = some ids := by
  intro ids
  induction ids with
  | nil => intro _; rfl
  | cons i rest ih =>
    intro hvalid
    have hi : i < S.char_list.length := hvalid i (List.mem_cons_self i rest)
    have hmem : S.char_list.getD i "" ∈ S.char_list := by
      rw [List.getD_eq_getElem?_getD, List.getElem?_eq_getElem hi]
      exact List.getElem_mem hi
    have hlen : (S.char_list.getD i "").data.length = 1 := hone _ hmem
    obtain ⟨c, hc⟩ := List.length_eq_one.mp hlen
    have hs : String.singleton c = S.char_list.getD i "" :=
      String.ext (by rw [String.data_singleton, hc])
    have hrest := ih (fun j hj => hvalid j (List.mem_cons_of_mem i hj))
    simp only [List.map_cons, List.flatten_cons, hc, List.singleton_append, chars_to_ids, hs,
      Scorer.reverse_map_of_nodup S i hnodup hi, hrest]

/-- C12, amended: for a symbol table whose entries are pairwise distinct and are
one character each, and every sequence of valid symbol ids, converting the sequence
to text with `vec2str` and converting the text back through the reversed symbol
table of `fill_dictionary` yields the sequence again. -/
theorem Scorer.vec2str_round_trip (S : Scorer σ α) (ids : List Nat)
    (hnodup : S.char_list.Nodup) (hone : ∀ s ∈ S.char_list, s.length = 1)
    (hvalid : ∀ i ∈ ids, i < S.char_list.length) :
    word_to_ids S.reverse_map (S.vec2str ids) = some ids := by
  rw [word_to_ids, Scorer.vec2str_data]
  exact Scorer.chars_to_ids_round_trip S hnodup hone ids hvalid

/-- C12, amended, on the symbol table `e`, `a`, `b`, space: the ids `1 2 3 0` are the
text `ab e` and are converted back to `1 2 3 0`. -/
theorem Scorer.vec2str_round_trip_witness :
    example_table_scorer.vec2str [1, 2, 3, 0] = "ab e" ∧
    word_to_ids example_table_scorer.reverse_map (example_table_scorer.vec2str [1, 2, 3, 0]) =
      some [1, 2, 3, 0] :=
  ⟨rfl, Scorer.vec2str_round_trip example_table_scorer [1, 2, 3, 0] (by decide) (by decide)
    (by decide)⟩

end SwigDecoders
